import Mathlib

/-!
Shallow embedding of the frame-timing telemetry pipeline in
`src/crates/timings/src/lib.rs` (crate `ambient_timings`).

Modelling decisions:
* `Instant` (a monotonic timestamp) is modelled as `Nat`, measured in
  milliseconds; `Duration` subtraction `rendered - input` is `Nat`
  truncated subtraction (the claims only exercise `rendered ≥ input`).
* The fixed array `[Option<Instant>; TimingEventType::COUNT]`, always
  indexed by `TimingEventType::idx`, is modelled as a total function
  `TimingEventType → Option Nat`.
* The `VecDeque<Frame>` window is modelled as a `List Frame` whose head is
  the *back* (oldest frame) and whose last element is the *front* (newest
  frame, the one `push_front` prepends to in Rust).  `pop_back` is thus
  dropping the head and `push_front` is appending at the end.
* Per-event broadcasting (`for f in self.frames.iter_mut()`) mutates each
  frame independently of the others, so it is modelled as `List.map`.
* The two `unwrap()` calls on `frames.front()` are modelled by returning
  `Option`: a `none` result marks the panic the claims are about.
* The `VecDeque<FrameTimings>` sample history is a `List FrameTimings`
  whose head is the front (oldest sample); `pop_front` drops the head and
  `push_back` appends at the end.
-/

/-- Kernel-friendly decidable equality for `Option`: unlike the derived core
instance it returns `isTrue`/`isFalse` without rewriting along the component
proof, so concrete equalities evaluate by reduction. -/
instance (priority := 2000) optionDecEqKernel {α : Type} [DecidableEq α] :
    DecidableEq (Option α) := fun a b =>
  match a, b with
  | none, none => isTrue rfl
  | none, some _ => isFalse (fun h => Option.noConfusion h)
  | some _, none => isFalse (fun h => Option.noConfusion h)
  | some x, some y =>
    match decEq x y with
    | isTrue h => isTrue (congrArg some h)
    | isFalse h => isFalse (fun hh => h (Option.some.inj hh))

/-- Kernel-friendly decidable equality for pairs, for the same reason as the
`Option` instance above. -/
instance (priority := 2000) prodDecEqKernel {α β : Type} [DecidableEq α]
    [DecidableEq β] : DecidableEq (α × β) := fun a b =>
  match a, b with
  | (x, y), (x2, y2) =>
    match decEq x x2, decEq y y2 with
    | isTrue h1, isTrue h2 => isTrue (by rw [h1, h2])
    | isFalse h1, _ => isFalse (fun hh => h1 (congrArg Prod.fst hh))
    | _, isFalse h2 => isFalse (fun hh => h2 (congrArg Prod.snd hh))

namespace Timings

/-- Capacity constant `MAX_SAMPLES` from the source. -/
def MAX_SAMPLES : Nat := 128

/-- The nine pipeline stages, in source declaration order (`TimingEventType`). -/
inductive TimingEventType
  | Input
  | ScriptingStarted
  | ScriptingFinished
  | ClientSystemsStarted
  | ClientSystemsFinished
  | DrawingWorld
  | DrawingUI
  | SubmittingGPUCommands
  | RenderingFinished
deriving DecidableEq

namespace TimingEventType

/-- All nine stages in declaration order. -/
def allStages : List TimingEventType :=
  [.Input, .ScriptingStarted, .ScriptingFinished, .ClientSystemsStarted,
    .ClientSystemsFinished, .DrawingWorld, .DrawingUI,
    .SubmittingGPUCommands, .RenderingFinished]

/-- Stages form a finite type, for deciding quantifications over stages. -/
instance : Fintype TimingEventType where
  elems := ⟨(allStages : Multiset TimingEventType), by decide⟩
  complete := fun x => by cases x <;> decide

/-- Zero-based declaration index (`self as usize` in the source). -/
def idx : TimingEventType → Nat
  | .Input => 0
  | .ScriptingStarted => 1
  | .ScriptingFinished => 2
  | .ClientSystemsStarted => 3
  | .ClientSystemsFinished => 4
  | .DrawingWorld => 5
  | .DrawingUI => 6
  | .SubmittingGPUCommands => 7
  | .RenderingFinished => 8

/-- The terminal stage (`TimingEventType::last()`). -/
def last : TimingEventType := .RenderingFinished

end TimingEventType

/-- Computable equality test for a timestamp-slot array, by comparing the
nine slots pointwise (kernel-reducible, unlike the generic pi instance). -/
instance instDecEqSlots : DecidableEq (TimingEventType → Option Nat) := fun f g =>
  decidable_of_iff
    (f .Input = g .Input ∧ f .ScriptingStarted = g .ScriptingStarted ∧
      f .ScriptingFinished = g .ScriptingFinished ∧
      f .ClientSystemsStarted = g .ClientSystemsStarted ∧
      f .ClientSystemsFinished = g .ClientSystemsFinished ∧
      f .DrawingWorld = g .DrawingWorld ∧ f .DrawingUI = g .DrawingUI ∧
      f .SubmittingGPUCommands = g .SubmittingGPUCommands ∧
      f .RenderingFinished = g .RenderingFinished)
    (by
      constructor
      · rintro ⟨h1, h2, h3, h4, h5, h6, h7, h8, h9⟩
        funext s
        cases s <;> assumption
      · intro h
        simp [h])

/-- A stage tag paired with its timestamp (`TimingEvent`). -/
structure TimingEvent where
  event_type : TimingEventType
  time : Nat
deriving DecidableEq

/-- Read-only snapshot of a finished frame's timestamp array (`FrameTimings`). -/
structure FrameTimings where
  event_times : TimingEventType → Option Nat

instance : DecidableEq FrameTimings := fun a b =>
  decidable_of_iff (a.event_times = b.event_times) (by cases a; cases b; simp)

/-- `FrameTimings::input_to_rendered`: `Some(rendered - input)` when both the
`Input` and the `RenderingFinished` slots are set, `None` otherwise. -/
def FrameTimings.input_to_rendered (t : FrameTimings) : Option Nat :=
  match t.event_times .Input, t.event_times .RenderingFinished with
  | some input, some rendered => some (rendered - input)
  | _, _ => none

/-- Per-frame state machine (`Frame`). -/
structure Frame where
  last_event_type : TimingEventType
  event_times : TimingEventType → Option Nat

instance : DecidableEq Frame := fun a b =>
  decidable_of_iff
    (a.last_event_type = b.last_event_type ∧ a.event_times = b.event_times)
    (by cases a; cases b; simp)

namespace Frame

/-- `Frame::timings`. -/
def timings (f : Frame) : FrameTimings := ⟨f.event_times⟩

/-- `Frame::should_accept_event`, translated clause by clause. -/
def should_accept_event (f : Frame) (event_type : TimingEventType) : Bool :=
  f.last_event_type.idx + 1 == event_type.idx ||
    (f.last_event_type == .Input && event_type == .Input) ||
    (f.last_event_type == .SubmittingGPUCommands && event_type == .RenderingFinished)

/-- `Frame::is_accepting_input`. -/
def is_accepting_input (f : Frame) : Bool :=
  f.last_event_type == .Input

/-- `Frame::is_finished`. -/
def is_finished (f : Frame) : Bool :=
  f.last_event_type == TimingEventType.last

/-- `Frame::process_event`: on acceptance, write the slot only if empty
(`.or(Some(event.time))`) and advance `last_event_type`. -/
def process_event (f : Frame) (event : TimingEvent) : Frame :=
  if f.should_accept_event event.event_type then
    { last_event_type := event.event_type
      event_times := fun s =>
        if s = event.event_type then (f.event_times s).or (some event.time)
        else f.event_times s }
  else f

/-- `impl Default for Frame`: `last_event_type = Input`, all slots empty. -/
def default : Frame :=
  { last_event_type := .Input, event_times := fun _ => none }

end Frame

/-- The `while let Some(f) = frames.back() { if f.is_finished() { pop_back; push
snapshot } else break }` loop of `ProcessTimingEventsSystem::run`.  With the
window stored oldest-first this pops finished frames from the head, returning
the remaining window and the snapshots in pop (oldest-first) order. -/
def popFinished : List Frame → List Frame × List FrameTimings
  | [] => ([], [])
  | f :: rest =>
    if f.is_finished then
      let r := popFinished rest
      (r.1, f.timings :: r.2)
    else (f :: rest, [])

/-- The front (newest) frame of the window, `frames.front()`: with the window
stored oldest-first this is the final element of the list.  Defined by direct
structural recursion so that it evaluates by reduction. -/
def frontFrame : List Frame → Option Frame
  | [] => none
  | [f] => some f
  | _ :: g :: rest => frontFrame (g :: rest)

/-- One iteration of the per-event loop in `ProcessTimingEventsSystem::run`:
broadcast the event to every frame, then (panicking `unwrap` modelled as
`none`) inspect the front (newest) frame and push a fresh frame if it is no
longer accepting input, then pop finished frames from the back. -/
def stepImpl (w : List Frame) (e : TimingEvent) :
    Option (List Frame × List FrameTimings) :=
  let w1 := w.map (fun f => f.process_event e)
  match frontFrame w1 with
  | none => none
  | some front =>
    let w2 := if front.is_accepting_input then w1 else w1 ++ [Frame.default]
    some (popFinished w2)

/-- The whole per-event loop of `ProcessTimingEventsSystem::run`, draining the
batch of pending events in arrival order and accumulating `pending_samples`.
A `none` result marks a panicking `unwrap()`. -/
def runImpl (w : List Frame) (out : List FrameTimings) :
    List TimingEvent → Option (List Frame × List FrameTimings)
  | [] => some (w, out)
  | e :: es =>
    match stepImpl w e with
    | none => none
    | some r => runImpl r.1 (out ++ r.2) es

/-- Draining a batch from the initial window (`Default for
ProcessTimingEventsSystem`: a single fresh frame). -/
def drainImpl (events : List TimingEvent) :
    Option (List Frame × List FrameTimings) :=
  runImpl [Frame.default] [] events

/-- The body of the `while samples.len() + 1 >= MAX_SAMPLES {
samples.pop_front(); }` eviction loop, with an explicit iteration budget so
that the recursion is structural (and hence kernel-evaluable).  Each loop
iteration removes one element, so a budget of `l.length` runs the loop to
completion: once the list is empty the guard `0 + 1 ≥ 128` is false and the
loop exits regardless of remaining budget. -/
def evictLoop : List FrameTimings → Nat → List FrameTimings
  | l, 0 => l
  | l, fuel + 1 =>
    if l.length + 1 ≥ MAX_SAMPLES then evictLoop l.tail fuel else l

/-- The `while samples.len() + 1 >= MAX_SAMPLES { samples.pop_front(); }`
eviction loop guarding each history append. -/
def evict (l : List FrameTimings) : List FrameTimings :=
  evictLoop l l.length

/-- One history append of `ProcessTimingEventsSystem::run`: evict, then
`samples.push_back(sample)`. -/
def historyPush (l : List FrameTimings) (sample : FrameTimings) :
    List FrameTimings :=
  evict l ++ [sample]

/-- A full tick of `ProcessTimingEventsSystem::run` on the queued events:
drain them through the per-event loop, then append every pending sample to
the history (the `if !pending_samples.is_empty()` guard is immaterial since
appending an empty batch changes nothing). -/
def tickDrain (w : List Frame) (history : List FrameTimings)
    (events : List TimingEvent) :
    Option (List Frame × List FrameTimings) :=
  (runImpl w [] events).map (fun r => (r.1, r.2.foldl historyPush history))

/-- Modelled from the spec (§4.4 steps 1–2), for the refinement claim: one
event of the spec's drain algorithm — broadcast to every frame oldest to
newest, then push a fresh front frame when the front stops accepting input.
No frames are removed during the batch. -/
def stepSpec (w : List Frame) (e : TimingEvent) : List Frame :=
  let w1 := w.map (fun f => f.process_event e)
  match frontFrame w1 with
  | none => w1
  | some front => if front.is_accepting_input then w1 else w1 ++ [Frame.default]

/-- Modelled from the spec (§4.4 step 3), for the refinement claim: process
the whole batch, then repeatedly remove finished frames from the back,
handing their snapshots over oldest-first. -/
def drainSpec (w : List Frame) (events : List TimingEvent) :
    List Frame × List FrameTimings :=
  popFinished (events.foldl stepSpec w)

/-- Ghost-instrumented run of a single frame over an event list, additionally
recording which stages have been accepted at least once (used to state the
slot invariant). -/
def acceptRun (f : Frame) (acc : TimingEventType → Bool) :
    List TimingEvent → Frame × (TimingEventType → Bool)
  | [] => (f, acc)
  | e :: es =>
    acceptRun (f.process_event e)
      (fun s => if f.should_accept_event e.event_type ∧ s = e.event_type
        then true else acc s) es

/-- The nine-stage single-frame scenario batch: every stage reported in
source order, stage `i` at `i` milliseconds. -/
def scenarioEvents : List TimingEvent :=
  [⟨.Input, 0⟩, ⟨.ScriptingStarted, 1⟩, ⟨.ScriptingFinished, 2⟩,
    ⟨.ClientSystemsStarted, 3⟩, ⟨.ClientSystemsFinished, 4⟩,
    ⟨.DrawingWorld, 5⟩, ⟨.DrawingUI, 6⟩,
    ⟨.SubmittingGPUCommands, 7⟩, ⟨.RenderingFinished, 8⟩]

/-- The snapshot the scenario batch produces: every stage recorded at a
timestamp equal to its index in milliseconds. -/
def scenarioSample : FrameTimings := ⟨fun s => some s.idx⟩

/-- The i-th of a family of pairwise distinct finished samples. -/
def mkSample (i : Nat) : FrameTimings := ⟨fun _ => some i⟩

/-- A batch of MAX_SAMPLES + 1 = 129 pairwise distinct samples. -/
def samples129 : List FrameTimings := (List.range 129).map mkSample

/-- An event batch that never reports `Input`: the fresh frame accepts
`ScriptingStarted` directly (index 0 + 1 = 1) and advances to completion. -/
def noInputEvents : List TimingEvent :=
  [⟨.ScriptingStarted, 1⟩, ⟨.ScriptingFinished, 2⟩,
    ⟨.ClientSystemsStarted, 3⟩, ⟨.ClientSystemsFinished, 4⟩,
    ⟨.DrawingWorld, 5⟩, ⟨.DrawingUI, 6⟩,
    ⟨.SubmittingGPUCommands, 7⟩, ⟨.RenderingFinished, 8⟩]

/-- The frame a fresh frame becomes after processing `noInputEvents`. -/
def noInputFrame : Frame :=
  noInputEvents.foldl Frame.process_event Frame.default

/-- A finished frame rejects every incoming stage: with `last_event_type =
RenderingFinished` none of the three acceptance clauses can hold. -/
lemma finished_rejects (f : Frame) (t : TimingEventType)
    (h : f.is_finished = true) : f.should_accept_event t = false := by
  obtain ⟨l, et⟩ := f
  simp only [Frame.is_finished, beq_iff_eq] at h
  subst h
  cases t <;> rfl

/-- A finished frame is left unchanged by any further event. -/
lemma finished_inert (f : Frame) (e : TimingEvent)
    (h : f.is_finished = true) : f.process_event e = f := by
  rw [Frame.process_event, finished_rejects f e.event_type h]
  simp

/-- A frame still accepting input is not finished. -/
lemma accepting_not_finished (f : Frame)
    (h : f.is_accepting_input = true) : f.is_finished = false := by
  obtain ⟨l, et⟩ := f
  simp only [Frame.is_accepting_input, beq_iff_eq] at h
  subst h
  rfl

/-- Unfolding of the acceptance test on a destructured frame. -/
lemma should_accept_mk (l : TimingEventType) (et : TimingEventType → Option Nat)
    (s : TimingEventType) :
    Frame.should_accept_event ⟨l, et⟩ s =
      (l.idx + 1 == s.idx || (l == .Input && s == .Input) ||
        (l == .SubmittingGPUCommands && s == .RenderingFinished)) := rfl

/-- C2: a frame accepts an incoming stage exactly when the stage's index is
the successor of the last accepted stage's index, or both are `Input`, or the
frame is at `SubmittingGPUCommands` and the stage is `RenderingFinished`;
an event failing all three conditions leaves the frame unchanged. -/
theorem C2_acceptance_rule (f : Frame) (e : TimingEvent) :
    (f.should_accept_event e.event_type = true ↔
      (e.event_type.idx = f.last_event_type.idx + 1 ∨
        (e.event_type = .Input ∧ f.last_event_type = .Input) ∨
        (f.last_event_type = .SubmittingGPUCommands ∧
          e.event_type = .RenderingFinished))) ∧
    (¬(e.event_type.idx = f.last_event_type.idx + 1 ∨
        (e.event_type = .Input ∧ f.last_event_type = .Input) ∨
        (f.last_event_type = .SubmittingGPUCommands ∧
          e.event_type = .RenderingFinished)) →
      f.process_event e = f) := by
  have hiff : f.should_accept_event e.event_type = true ↔
      (e.event_type.idx = f.last_event_type.idx + 1 ∨
        (e.event_type = .Input ∧ f.last_event_type = .Input) ∨
        (f.last_event_type = .SubmittingGPUCommands ∧
          e.event_type = .RenderingFinished)) := by
    simp only [Frame.should_accept_event, Bool.or_eq_true, Bool.and_eq_true,
      beq_iff_eq]
    constructor
    · rintro ((h | ⟨h1, h2⟩) | ⟨h1, h2⟩)
      · exact Or.inl h.symm
      · exact Or.inr (Or.inl ⟨h2, h1⟩)
      · exact Or.inr (Or.inr ⟨h1, h2⟩)
    · rintro (h | ⟨h1, h2⟩ | ⟨h1, h2⟩)
      · exact Or.inl (Or.inl h.symm)
      · exact Or.inl (Or.inr ⟨h2, h1⟩)
      · exact Or.inr ⟨h1, h2⟩
  refine ⟨hiff, fun h => ?_⟩
  have hfalse : f.should_accept_event e.event_type = false := by
    rw [Bool.eq_false_iff]
    intro htrue
    exact h (hiff.mp htrue)
  rw [Frame.process_event, hfalse]
  simp

/-- Witness for C2 at a concrete rejected event. -/
theorem C2_acceptance_rule_witness :
    Frame.default.process_event ⟨.RenderingFinished, 5⟩ = Frame.default :=
  (C2_acceptance_rule Frame.default ⟨.RenderingFinished, 5⟩).2 (by decide)

/-- C6: once a stage's timestamp slot is set, processing any further event
never changes it (first-write-wins). -/
theorem C6_first_write_wins (f : Frame) (e : TimingEvent)
    (s : TimingEventType) (t : Nat) (h : f.event_times s = some t) :
    (f.process_event e).event_times s = some t := by
  rw [Frame.process_event]
  cases hb : f.should_accept_event e.event_type
  · simpa using h
  · by_cases hs : s = e.event_type
    · subst hs
      simp [h]
    · simp [hs, h]

/-- Witness for C6: a repeated Input event keeps the first Input stamp. -/
theorem C6_first_write_wins_witness :
    (Frame.process_event ⟨.Input, fun s => if s = .Input then some 3 else none⟩
      ⟨.Input, 9⟩).event_times .Input = some 3 :=
  C6_first_write_wins ⟨.Input, fun s => if s = .Input then some 3 else none⟩
    ⟨.Input, 9⟩ .Input 3 (by decide)

/-- C7: a frame at `SubmittingGPUCommands` accepts `RenderingFinished`
directly and becomes finished; a frame at any other stage rejects every
event two or more stages ahead. -/
theorem C7_skip_exception :
    (∀ (f : Frame) (t : Nat), f.last_event_type = .SubmittingGPUCommands →
      f.should_accept_event .RenderingFinished = true ∧
      (f.process_event ⟨.RenderingFinished, t⟩).is_finished = true) ∧
    (∀ (f : Frame) (s : TimingEventType),
      f.last_event_type ≠ .SubmittingGPUCommands →
      f.last_event_type.idx + 2 ≤ s.idx →
      f.should_accept_event s = false) := by
  constructor
  · intro f t h
    obtain ⟨l, et⟩ := f
    simp only at h
    subst h
    exact ⟨rfl, rfl⟩
  · intro f s h1 h2
    obtain ⟨l, et⟩ := f
    simp only at h1 h2
    rw [should_accept_mk]
    revert l s h1 h2
    decide

/-- Witness for C7 at concrete frames. -/
theorem C7_skip_exception_witness :
    Frame.should_accept_event ⟨.SubmittingGPUCommands, fun _ => none⟩
      .RenderingFinished = true ∧
    (Frame.process_event ⟨.SubmittingGPUCommands, fun _ => none⟩
      ⟨.RenderingFinished, 9⟩).is_finished = true ∧
    Frame.should_accept_event Frame.default .ScriptingFinished = false :=
  ⟨(C7_skip_exception.1 ⟨.SubmittingGPUCommands, fun _ => none⟩ 9 rfl).1,
    (C7_skip_exception.1 ⟨.SubmittingGPUCommands, fun _ => none⟩ 9 rfl).2,
    C7_skip_exception.2 Frame.default .ScriptingFinished (by decide) (by decide)⟩

/-- C9: a finished frame rejects every stage and is left unchanged by every
further event. -/
theorem C9_finished_frames_inert (f : Frame) (h : f.is_finished = true)
    (e : TimingEvent) :
    f.should_accept_event e.event_type = false ∧ f.process_event e = f :=
  ⟨finished_rejects f e.event_type h, finished_inert f e h⟩

/-- Witness for C9 at a concrete finished frame. -/
theorem C9_finished_frames_inert_witness :
    Frame.should_accept_event ⟨.RenderingFinished, fun _ => none⟩ .Input = false ∧
    Frame.process_event ⟨.RenderingFinished, fun _ => none⟩ ⟨.Input, 0⟩ =
      ⟨.RenderingFinished, fun _ => none⟩ :=
  C9_finished_frames_inert ⟨.RenderingFinished, fun _ => none⟩ (by decide)
    ⟨.Input, 0⟩

/-- C10: `input_to_rendered` is `some (rendered - input)` exactly when both
the Input and the RenderingFinished slots are set, `none` when either is
unset, and `none` is reachable for a finished frame: a fresh frame may accept
`ScriptingStarted` first and run to completion with no Input stamp. -/
theorem C10_input_to_rendered_none_cases :
    (∀ (t : FrameTimings) (i r : Nat),
      t.event_times .Input = some i →
      t.event_times .RenderingFinished = some r →
      t.input_to_rendered = some (r - i)) ∧
    (∀ t : FrameTimings,
      (t.event_times .Input = none ∨ t.event_times .RenderingFinished = none) →
      t.input_to_rendered = none) ∧
    noInputFrame.is_finished = true ∧
    noInputFrame.timings.input_to_rendered = none := by
  refine ⟨?_, ?_, by decide, by decide⟩
  · intro t i r h1 h2
    simp [FrameTimings.input_to_rendered, h1, h2]
  · intro t h
    rcases h with h | h
    · cases h2 : t.event_times .RenderingFinished <;>
        simp [FrameTimings.input_to_rendered, h, h2]
    · cases h1 : t.event_times .Input <;>
        simp [FrameTimings.input_to_rendered, h, h1]

/-- The frame component of the ghost-instrumented run coincides with plainly
folding `process_event` over the events. -/
lemma acceptRun_fst (es : List TimingEvent) (f : Frame)
    (acc : TimingEventType → Bool) :
    (acceptRun f acc es).1 = es.foldl Frame.process_event f := by
  induction es generalizing f acc with
  | nil => rfl
  | cons e es ih => exact ih (f.process_event e) _

/-- Writing into a slot with `.or(Some(t))` always leaves it set. -/
lemma or_isSome (a : Option Nat) (t : Nat) : (a.or (some t)).isSome = true := by
  cases a <;> rfl

/-- Invariant of the ghost-instrumented run: a slot is set exactly when its
stage has been accepted, and once anything has been accepted the slot of the
last accepted stage is set. -/
lemma acceptRun_inv (es : List TimingEvent) (f : Frame)
    (acc : TimingEventType → Bool)
    (h1 : ∀ s, (f.event_times s).isSome = acc s)
    (h2 : (∃ s, acc s = true) →
      (f.event_times f.last_event_type).isSome = true) :
    (∀ s, ((acceptRun f acc es).1.event_times s).isSome =
      (acceptRun f acc es).2 s) ∧
    ((∃ s, (acceptRun f acc es).2 s = true) →
      ((acceptRun f acc es).1.event_times
        (acceptRun f acc es).1.last_event_type).isSome = true) := by
  induction es generalizing f acc with
  | nil => exact ⟨h1, h2⟩
  | cons e es ih =>
    apply ih
    · intro s
      by_cases hb : f.should_accept_event e.event_type = true
      · by_cases hs : s = e.event_type
        · subst hs
          simp [Frame.process_event, hb, or_isSome]
        · simp [Frame.process_event, hb, hs, h1 s]
      · have hb2 : f.should_accept_event e.event_type = false := by
          simpa using hb
        simp [Frame.process_event, hb2, h1 s]
    · intro hex
      by_cases hb : f.should_accept_event e.event_type = true
      · simp [Frame.process_event, hb, or_isSome]
      · have hb2 : f.should_accept_event e.event_type = false := by
          simpa using hb
        have hfe : f.process_event e = f := by
          simp [Frame.process_event, hb2]
        rw [hfe]
        apply h2
        obtain ⟨s, hs⟩ := hex
        simp [hb2] at hs
        exact ⟨s, hs⟩

/-- C4 counterexample: the newly created frame, reachable by the empty
sequence of accept-event operations, has `last_accepted_stage = Input` while
the Input slot is empty — so the claimed invariant "the slot belonging to
last_accepted_stage is always set" fails on it. -/
theorem C4_slot_invariant_counterexample :
    (acceptRun Frame.default (fun _ => false) []).1.last_event_type = .Input ∧
    (acceptRun Frame.default (fun _ => false) []).1.event_times
      ((acceptRun Frame.default (fun _ => false) []).1.last_event_type) =
      none := by
  exact ⟨rfl, rfl⟩

/-- C4 amended: for every frame reachable from a fresh frame, (a) a slot is
set if and only if its stage has been accepted at least once, and (b) the
slot of `last_accepted_stage` is set provided at least one event has been
accepted; a fresh frame has `last_accepted_stage = Input` and all slots
empty, and the instrumented run processes events exactly like the code. -/
theorem C4_slot_invariant_amended (es : List TimingEvent) :
    (∀ s, ((acceptRun Frame.default (fun _ => false) es).1.event_times s).isSome =
      (acceptRun Frame.default (fun _ => false) es).2 s) ∧
    ((∃ s, (acceptRun Frame.default (fun _ => false) es).2 s = true) →
      ((acceptRun Frame.default (fun _ => false) es).1.event_times
        (acceptRun Frame.default (fun _ => false) es).1.last_event_type).isSome =
        true) ∧
    Frame.default.last_event_type = .Input ∧
    (∀ s, Frame.default.event_times s = none) ∧
    (acceptRun Frame.default (fun _ => false) es).1 =
      es.foldl Frame.process_event Frame.default := by
  obtain ⟨a, b⟩ := acceptRun_inv es Frame.default (fun _ => false)
    (fun s => rfl)
    (fun h => absurd h (by simp))
  exact ⟨a, b, rfl, fun s => rfl, acceptRun_fst es Frame.default _⟩

/-- Witness for C4 amended: after one accepted Input event the last accepted
stage's slot is set. -/
theorem C4_slot_invariant_amended_witness :
    ((acceptRun Frame.default (fun _ => false) [⟨.Input, 0⟩]).1.event_times
      (acceptRun Frame.default (fun _ => false)
        [⟨.Input, 0⟩]).1.last_event_type).isSome = true :=
  (C4_slot_invariant_amended [⟨.Input, 0⟩]).2.1 ⟨.Input, by decide⟩

/-- Peeling the head off a two-or-more element list leaves the front. -/
lemma frontFrame_cons_cons (a g : Frame) (rest : List Frame) :
    frontFrame (a :: g :: rest) = frontFrame (g :: rest) := rfl

/-- Mapping commutes with taking the front frame. -/
lemma frontFrame_map (g : Frame → Frame) (l : List Frame) :
    frontFrame (l.map g) = (frontFrame l).map g := by
  induction l with
  | nil => rfl
  | cons a l ih =>
    cases l with
    | nil => rfl
    | cons b l2 =>
      simp only [List.map_cons] at ih ⊢
      rw [frontFrame_cons_cons, frontFrame_cons_cons]
      exact ih

/-- The front of a window ending in `f` is `f`. -/
lemma frontFrame_append_single (l : List Frame) (f : Frame) :
    frontFrame (l ++ [f]) = some f := by
  induction l with
  | nil => rfl
  | cons a l ih =>
    cases hl : l ++ [f] with
    | nil => exact absurd hl (by simp)
    | cons g rest =>
      rw [List.cons_append, hl, frontFrame_cons_cons, ← hl]
      exact ih

/-- Prepending older frames does not change the front of a nonempty window. -/
lemma frontFrame_append (p w : List Frame) (hw : w ≠ []) :
    frontFrame (p ++ w) = frontFrame w := by
  induction p with
  | nil => rfl
  | cons a p ih =>
    cases hl : p ++ w with
    | nil => exact absurd (List.append_eq_nil.mp hl).2 hw
    | cons g rest =>
      rw [List.cons_append, hl, frontFrame_cons_cons, ← hl]
      exact ih

/-- The front frame is an element of the window. -/
lemma frontFrame_mem (l : List Frame) (f : Frame)
    (h : frontFrame l = some f) : f ∈ l := by
  induction l with
  | nil => cases h
  | cons a l ih =>
    cases l with
    | nil =>
      have : a = f := by
        have h2 : some a = some f := h
        exact Option.some.inj h2
      simp [this]
    | cons b l2 =>
      rw [frontFrame_cons_cons] at h
      exact List.mem_cons_of_mem a (ih h)

/-- Unfolding `popFinished` on a finished back frame. -/
lemma popFinished_cons_finished (f : Frame) (rest : List Frame)
    (hf : f.is_finished = true) :
    popFinished (f :: rest) =
      ((popFinished rest).1, f.timings :: (popFinished rest).2) := by
  simp [popFinished, hf]

/-- Unfolding `popFinished` on an unfinished back frame. -/
lemma popFinished_cons_not_finished (f : Frame) (rest : List Frame)
    (hf : f.is_finished = false) :
    popFinished (f :: rest) = (f :: rest, []) := by
  simp [popFinished, hf]

/-- The pop loop splits the window into a finished back segment, whose
snapshots it returns in pop order, and a remainder it leaves alone. -/
lemma popFinished_decomp (w : List Frame) :
    ∃ p, w = p ++ (popFinished w).1 ∧
      (∀ g ∈ p, g.is_finished = true) ∧
      (popFinished w).2 = p.map Frame.timings ∧
      popFinished (popFinished w).1 = ((popFinished w).1, []) := by
  induction w with
  | nil => exact ⟨[], rfl, by simp, rfl, rfl⟩
  | cons f rest ih =>
    by_cases hf : f.is_finished = true
    · obtain ⟨p, hw, hp, hs, hid⟩ := ih
      rw [popFinished_cons_finished f rest hf]
      refine ⟨f :: p, ?_, ?_, ?_, hid⟩
      · rw [List.cons_append, ← hw]
      · intro g hg
        rcases List.mem_cons.mp hg with h | h
        · rw [h]; exact hf
        · exact hp g h
      · rw [hs]; rfl
    · have hf2 : f.is_finished = false := by simpa using hf
      rw [popFinished_cons_not_finished f rest hf2]
      exact ⟨[], rfl, by simp, rfl, popFinished_cons_not_finished f rest hf2⟩

/-- The pop loop walks straight through a finished back segment. -/
lemma popFinished_all_finished_append (p w : List Frame)
    (hp : ∀ g ∈ p, g.is_finished = true) :
    popFinished (p ++ w) =
      ((popFinished w).1, p.map Frame.timings ++ (popFinished w).2) := by
  induction p with
  | nil => simp
  | cons a p ih =>
    have ha : a.is_finished = true := hp a (by simp)
    rw [List.cons_append, popFinished_cons_finished a _ ha,
      ih (fun g hg => hp g (by simp [hg]))]
    simp

/-- Broadcasting an event to finished frames changes none of them. -/
lemma map_inert (p : List Frame) (e : TimingEvent)
    (hp : ∀ g ∈ p, g.is_finished = true) :
    p.map (fun f => f.process_event e) = p := by
  induction p with
  | nil => rfl
  | cons a p ih =>
    rw [List.map_cons, finished_inert a e (hp a (by simp)),
      ih (fun g hg => hp g (by simp [hg]))]

/-- The per-event loop threads its accumulated samples along unchanged. -/
lemma runImpl_out (es : List TimingEvent) (w : List Frame)
    (out : List FrameTimings) :
    runImpl w out es = (runImpl w [] es).map (fun r => (r.1, out ++ r.2)) := by
  induction es generalizing w out with
  | nil => simp [runImpl]
  | cons e es ih =>
    cases hs : stepImpl w e with
    | none => simp [runImpl, hs]
    | some r =>
      simp only [runImpl, hs]
      rw [ih r.1 (out ++ r.2), ih r.1 ([] ++ r.2)]
      cases runImpl r.1 [] es <;> simp

/-- Unfolding one implementation step once the front frame is known. -/
lemma stepImpl_eq (w : List Frame) (e : TimingEvent) (f1 : Frame)
    (h : frontFrame (w.map (fun g => g.process_event e)) = some f1) :
    stepImpl w e = some (popFinished
      (if f1.is_accepting_input then w.map (fun g => g.process_event e)
        else w.map (fun g => g.process_event e) ++ [Frame.default])) := by
  rw [stepImpl]
  simp only [h]

/-- Unfolding one spec step once the front frame is known. -/
lemma stepSpec_eq (w : List Frame) (e : TimingEvent) (f1 : Frame)
    (h : frontFrame (w.map (fun g => g.process_event e)) = some f1) :
    stepSpec w e =
      (if f1.is_accepting_input then w.map (fun g => g.process_event e)
        else w.map (fun g => g.process_event e) ++ [Frame.default]) := by
  rw [stepSpec]
  simp only [h]

/-- Main drain induction: running the implemented per-event loop from a
well-formed window produces the same window as the spec's pop-at-the-end
algorithm, with the frames the loop already popped accumulating as a finished
prefix of the spec's window, and the loop's samples being their snapshots. -/
lemma drain_aux (es : List TimingEvent) :
    ∀ (w popped : List Frame),
    (∀ g ∈ popped, g.is_finished = true) →
    (∃ f, frontFrame w = some f ∧ f.is_accepting_input = true) →
    popFinished w = (w, []) →
    ∃ w2 np,
      runImpl w [] es = some (w2, np.map Frame.timings) ∧
      List.foldl stepSpec (popped ++ w) es = (popped ++ np) ++ w2 ∧
      (∀ g ∈ np, g.is_finished = true) ∧
      (∃ f2, frontFrame w2 = some f2 ∧ f2.is_accepting_input = true) ∧
      popFinished w2 = (w2, []) := by
  induction es with
  | nil =>
    intro w popped hpop hgood hid
    exact ⟨w, [], rfl, by simp, by simp, hgood, hid⟩
  | cons e es ih =>
    intro w popped hpop hgood hid
    obtain ⟨f, hf, hacc⟩ := hgood
    have hwne : w ≠ [] := by
      intro h0
      rw [h0] at hf
      cases hf
    have hfront1 : frontFrame (w.map (fun g => g.process_event e)) =
        some (f.process_event e) := by
      rw [frontFrame_map, hf]
      rfl
    have hstep := stepImpl_eq w e (f.process_event e) hfront1
    obtain ⟨ff, hff, hffacc⟩ :
        ∃ ff, frontFrame
          (if (f.process_event e).is_accepting_input
            then w.map (fun g => g.process_event e)
            else w.map (fun g => g.process_event e) ++ [Frame.default]) =
          some ff ∧ ff.is_accepting_input = true := by
      by_cases hacc1 : (f.process_event e).is_accepting_input = true
      · exact ⟨f.process_event e, by rw [if_pos hacc1]; exact hfront1, hacc1⟩
      · refine ⟨Frame.default, ?_, rfl⟩
        rw [if_neg hacc1, frontFrame_append_single]
    obtain ⟨p, hdecomp, hpfin, hsnd, hid2⟩ := popFinished_decomp
      (if (f.process_event e).is_accepting_input
        then w.map (fun g => g.process_event e)
        else w.map (fun g => g.process_event e) ++ [Frame.default])
    have hrestne : (popFinished
        (if (f.process_event e).is_accepting_input
          then w.map (fun g => g.process_event e)
          else w.map (fun g => g.process_event e) ++ [Frame.default])).1 ≠ [] := by
      intro h0
      rw [h0, List.append_nil] at hdecomp
      have hmem : ff ∈ p := by
        apply frontFrame_mem
        rw [← hdecomp]
        exact hff
      have := hpfin ff hmem
      rw [accepting_not_finished ff hffacc] at this
      cases this
    have hfrontrest : frontFrame (popFinished
        (if (f.process_event e).is_accepting_input
          then w.map (fun g => g.process_event e)
          else w.map (fun g => g.process_event e) ++ [Frame.default])).1 =
        some ff := by
      rw [hdecomp, frontFrame_append p _ hrestne] at hff
      exact hff
    obtain ⟨w2, np, himpl, hspec, hnpfin, hgood2, hid3⟩ :=
      ih (popFinished
          (if (f.process_event e).is_accepting_input
            then w.map (fun g => g.process_event e)
            else w.map (fun g => g.process_event e) ++ [Frame.default])).1
        (popped ++ p)
        (fun g hg => (List.mem_append.mp hg).elim (hpop g) (hpfin g))
        ⟨ff, hfrontrest, hffacc⟩ hid2
    refine ⟨w2, p ++ np, ?_, ?_, ?_, hgood2, hid3⟩
    · simp only [runImpl, hstep]
      rw [runImpl_out, himpl, hsnd]
      simp [List.map_append]
    · rw [List.foldl_cons]
      have hstepspec : stepSpec (popped ++ w) e =
          popped ++
            (if (f.process_event e).is_accepting_input
              then w.map (fun g => g.process_event e)
              else w.map (fun g => g.process_event e) ++ [Frame.default]) := by
        have hfrontp : frontFrame ((popped ++ w).map
            (fun g => g.process_event e)) = some (f.process_event e) := by
          rw [List.map_append, map_inert popped e hpop,
            frontFrame_append popped _ (by
              intro h0
              exact hwne (List.map_eq_nil_iff.mp h0)), hfront1]
        rw [stepSpec_eq (popped ++ w) e (f.process_event e) hfrontp,
          List.map_append, map_inert popped e hpop]
        by_cases hacc1 : (f.process_event e).is_accepting_input = true
        · rw [if_pos hacc1, if_pos hacc1]
        · rw [if_neg hacc1, if_neg hacc1, List.append_assoc]
      rw [hstepspec, hdecomp, ← List.append_assoc, hspec]
      simp [List.append_assoc]
    · intro g hg
      exact (List.mem_append.mp hg).elim (hpfin g) (hnpfin g)

/-- C3: draining any finite batch of timing events from the initial one-frame
window never hits a panicking `unwrap`: the per-event loop always returns a
result, so in particular the window is non-empty at every front inspection
(and the back removals are guarded by construction). -/
theorem C3_no_panics (es : List TimingEvent) :
    (drainImpl es).isSome = true := by
  obtain ⟨w2, np, himpl, -, -, -, -⟩ :=
    drain_aux es [Frame.default] []
      (by simp)
      ⟨Frame.default, rfl, rfl⟩
      rfl
  rw [drainImpl, himpl]
  rfl

/-- C5: the implemented drain — which pops finished back frames inside the
per-event loop — computes exactly the window and the ordered snapshot
sequence of the spec's algorithm, which broadcasts each event to the whole
window and only pops finished back frames after the entire batch. -/
theorem C5_drain_refinement (es : List TimingEvent) :
    drainImpl es = some (drainSpec [Frame.default] es) := by
  obtain ⟨w2, np, himpl, hspec, hnpfin, -, hid3⟩ :=
    drain_aux es [Frame.default] []
      (by simp)
      ⟨Frame.default, rfl, rfl⟩
      rfl
  rw [drainImpl, himpl, drainSpec]
  rw [List.nil_append] at hspec
  rw [hspec, List.nil_append, popFinished_all_finished_append np w2 hnpfin,
    hid3]
  simp

/-- C8: draining the nine-stage single-frame scenario in one tick adds
exactly one sample to the history — every stage stamped at its index in
milliseconds — leaves the window holding exactly one freshly pushed open
frame, and that sample's input-to-rendered duration is 8 ms. -/
theorem C8_single_frame_scenario :
    tickDrain [Frame.default] [] scenarioEvents =
      some ([Frame.default], [scenarioSample]) ∧
    scenarioSample.input_to_rendered = some 8 :=
  ⟨by decide, by decide⟩

set_option maxRecDepth 100000 in
/-- C1: evaluating the history-append step on MAX_SAMPLES + 1 = 129 distinct
samples.  The eviction loop `while samples.len() + 1 >= MAX_SAMPLES` already
evicts when the length would merely *reach* 128, so the resulting history
holds only the 127 most recent samples — not the 128 the claim expects. -/
theorem C1_history_eviction_overflow :
    (samples129.foldl historyPush []).length = 127 ∧
    samples129.foldl historyPush [] = ((List.range 129).drop 2).map mkSample :=
  ⟨by decide, by decide⟩

/-- Witness for C10 at concrete snapshots. -/
theorem C10_input_to_rendered_none_cases_witness :
    FrameTimings.input_to_rendered ⟨fun s => some s.idx⟩ = some (8 - 0) ∧
    FrameTimings.input_to_rendered ⟨fun _ => none⟩ = none :=
  ⟨C10_input_to_rendered_none_cases.1 ⟨fun s => some s.idx⟩ 0 8 (by decide)
      (by decide),
    C10_input_to_rendered_none_cases.2.1 ⟨fun _ => none⟩ (Or.inl rfl)⟩

end Timings
